import Mathlib

/-!
Shallow embedding of the `slackpkg` Salt execution module (`slackpkg.py`)
and verification of its natural-language specification.

Python strings are modelled as `List Char`; Python dicts as association
lists; Python exceptions as explicit error values.  External collaborators
(the process-execution collaborator `cmd.run_all` and the filesystem glob)
are modelled as explicit oracle parameters.
-/

set_option autoImplicit false

namespace Slackpkg

/-- Python strings, modelled as lists of characters. -/
abbrev Str := List Char

/-- Split a string at the LAST occurrence of the character `c`:
`splitLast c s = some (pre, post)` when `s = pre ++ [c] ++ post` and `post`
is `c`-free; `none` when `c` does not occur in `s`. -/
def splitLast (c : Char) : Str → Option (Str × Str)
  | [] => none
  | a :: rest =>
    match splitLast c rest with
    | some (pre, post) => some (a :: pre, post)
    | none => if a = c then some ([], rest) else none

/-- Python's `s.rsplit(sep, n)` for a single-character separator: split from
the right at most `n` times. -/
def rsplitN (c : Char) : Nat → Str → List Str
  | 0, s => [s]
  | Nat.succ n, s =>
    match splitLast c s with
    | none => [s]
    | some (pre, post) => rsplitN c n pre ++ [post]

theorem splitLast_eq_none_of_not_mem {c : Char} {s : Str} (h : c ∉ s) :
    splitLast c s = none := by
  induction s with
  | nil => rfl
  | cons a rest ih =>
    have ha : a ≠ c := fun hc => h (hc ▸ List.mem_cons_self a rest)
    have hr : c ∉ rest := fun hc => h (List.mem_cons_of_mem a hc)
    simp [splitLast, ih hr, ha]

theorem not_mem_of_splitLast_eq_none {c : Char} {s : Str}
    (h : splitLast c s = none) : c ∉ s := by
  induction s with
  | nil => simp
  | cons a rest ih =>
    rw [splitLast] at h
    cases hr : splitLast c rest with
    | some pr => rw [hr] at h; cases h
    | none =>
      rw [hr] at h
      by_cases hac : a = c
      · simp [hac] at h
      · intro hmem
        rcases List.mem_cons.mp hmem with h1 | h2
        · exact hac h1.symm
        · exact ih hr h2

theorem splitLast_spec {c : Char} {s pre post : Str}
    (h : splitLast c s = some (pre, post)) :
    s = pre ++ c :: post ∧ c ∉ post := by
  induction s generalizing pre post with
  | nil => simp [splitLast] at h
  | cons a rest ih =>
    rw [splitLast] at h
    cases hr : splitLast c rest with
    | some pr =>
      obtain ⟨p1, p2⟩ := pr
      rw [hr] at h
      simp only [Option.some.injEq, Prod.mk.injEq] at h
      obtain ⟨h1, h2⟩ := h
      obtain ⟨hs, hnp⟩ := ih hr
      subst h1 h2 hs
      exact ⟨rfl, hnp⟩
    | none =>
      rw [hr] at h
      by_cases hac : a = c
      · rw [if_pos hac] at h
        injection h with h'
        injection h' with h1 h2
        subst h1 h2
        exact ⟨by simp [hac], not_mem_of_splitLast_eq_none hr⟩
      · simp [hac] at h

theorem splitLast_append_cons {c : Char} (x : Str) {y : Str} (hy : c ∉ y) :
    splitLast c (x ++ c :: y) = some (x, y) := by
  induction x with
  | nil => simp [splitLast, splitLast_eq_none_of_not_mem hy]
  | cons a as ih => simp [splitLast, ih]

theorem splitLast_isSome_of_mem {c : Char} {s : Str} (h : c ∈ s) :
    ∃ pr, splitLast c s = some pr := by
  cases hs : splitLast c s with
  | none => exact absurd h (not_mem_of_splitLast_eq_none hs)
  | some pr => exact ⟨pr, rfl⟩

theorem count_of_splitLast {c : Char} {s pre post : Str}
    (h : splitLast c s = some (pre, post)) :
    s.count c = pre.count c + 1 := by
  obtain ⟨hs, hnp⟩ := splitLast_spec h
  subst hs
  simp [List.count_append, List.count_cons, List.count_eq_zero.mpr hnp]

/-- Record of `_pkginfo`'s result (the Python `PkgInfo` namedtuple with
fields name, version, arch, build). -/
structure PkgInfo where
  name : Str
  version : Str
  arch : Str
  build : Str
  deriving DecidableEq

/-- Embedding of `_pkginfo`: `package.rsplit("-", 3)` unpacked into the
four-field named tuple.  `none` models the `ValueError` raised by the
unpacking when the token holds fewer than three dashes. -/
def pkginfo (package : Str) : Option PkgInfo :=
  match rsplitN '-' 3 package with
  | [n, v, a, b] => some ⟨n, v, a, b⟩
  | _ => none

theorem rsplitN_zero (c : Char) (s : Str) : rsplitN c 0 s = [s] := rfl

theorem rsplitN_succ_of_some {c : Char} (m : Nat) {s pre post : Str}
    (h : splitLast c s = some (pre, post)) :
    rsplitN c (m + 1) s = rsplitN c m pre ++ [post] := by
  show (match splitLast c s with
    | none => [s]
    | some (pre, post) => rsplitN c m pre ++ [post]) = rsplitN c m pre ++ [post]
  rw [h]

theorem rsplitN_succ_of_none {c : Char} (m : Nat) {s : Str}
    (h : splitLast c s = none) :
    rsplitN c (m + 1) s = [s] := by
  show (match splitLast c s with
    | none => [s]
    | some (pre, post) => rsplitN c m pre ++ [post]) = [s]
  rw [h]

theorem rsplit3_eq_of_count {s : Str} (h : 3 ≤ s.count '-') :
    ∃ n v a b : Str, rsplitN '-' 3 s = [n, v, a, b] ∧
      s = n ++ '-' :: v ++ '-' :: a ++ '-' :: b ∧
      '-' ∉ v ∧ '-' ∉ a ∧ '-' ∉ b := by
  have hm1 : '-' ∈ s := by
    by_contra hc
    rw [List.count_eq_zero.mpr hc] at h
    omega
  obtain ⟨⟨p1, b⟩, hs1⟩ := splitLast_isSome_of_mem hm1
  have hc1 := count_of_splitLast hs1
  have hm2 : '-' ∈ p1 := by
    by_contra hc
    rw [List.count_eq_zero.mpr hc] at hc1
    omega
  obtain ⟨⟨p2, a⟩, hs2⟩ := splitLast_isSome_of_mem hm2
  have hc2 := count_of_splitLast hs2
  have hm3 : '-' ∈ p2 := by
    by_contra hc
    rw [List.count_eq_zero.mpr hc] at hc2
    omega
  obtain ⟨⟨n, v⟩, hs3⟩ := splitLast_isSome_of_mem hm3
  obtain ⟨he1, hb⟩ := splitLast_spec hs1
  obtain ⟨he2, ha⟩ := splitLast_spec hs2
  obtain ⟨he3, hv⟩ := splitLast_spec hs3
  refine ⟨n, v, a, b, ?_, ?_, hv, ha, hb⟩
  · have e1 : rsplitN '-' 3 s = rsplitN '-' 2 p1 ++ [b] :=
      rsplitN_succ_of_some 2 hs1
    have e2 : rsplitN '-' 2 p1 = rsplitN '-' 1 p2 ++ [a] :=
      rsplitN_succ_of_some 1 hs2
    have e3 : rsplitN '-' 1 p2 = rsplitN '-' 0 n ++ [v] :=
      rsplitN_succ_of_some 0 hs3
    rw [e1, e2, e3, rsplitN_zero]
    simp
  · rw [he1, he2, he3]

/-- C2: for every token containing at least three `-` characters, `_pkginfo`
returns four components (name, version, arch, build) such that rejoining
them with `-` in that order yields the original token, and version, arch
and build themselves contain no `-`. -/
theorem pkginfo_last_three_fields (s : Str) (h : 3 ≤ s.count '-') :
    ∃ r : PkgInfo, pkginfo s = some r ∧
      r.name ++ '-' :: r.version ++ '-' :: r.arch ++ '-' :: r.build = s ∧
      '-' ∉ r.version ∧ '-' ∉ r.arch ∧ '-' ∉ r.build := by
  obtain ⟨n, v, a, b, hr, hs, hv, ha, hb⟩ := rsplit3_eq_of_count h
  exact ⟨⟨n, v, a, b⟩, by rw [pkginfo, hr], hs.symm, hv, ha, hb⟩

/-- Witness for C2 at the concrete token `pkg-name-1.0-x86_64-1`. -/
theorem pkginfo_last_three_fields_witness :
    3 ≤ ("pkg-name-1.0-x86_64-1".data).count '-' ∧
    ∃ r : PkgInfo, pkginfo "pkg-name-1.0-x86_64-1".data = some r ∧
      r.name ++ '-' :: r.version ++ '-' :: r.arch ++ '-' :: r.build =
        "pkg-name-1.0-x86_64-1".data ∧
      '-' ∉ r.version ∧ '-' ∉ r.arch ∧ '-' ∉ r.build :=
  ⟨by decide, pkginfo_last_three_fields "pkg-name-1.0-x86_64-1".data (by decide)⟩

/-- Python runtime errors that the module can hit. -/
inductive PyErr where
  | unboundLocal (name : Str)
  | keyError (key : Str)
  | valueError
  | indexError
  deriving DecidableEq

/-- Lookup in an association list: Python dict access `d[k]` /
membership test `k in d`. -/
def lookupStr {α : Type} (k : Str) : List (Str × α) → Option α
  | [] => none
  | (k', v) :: rest => if k' = k then some v else lookupStr k rest

/-- Python dict assignment `d[k] = v`: replace the value in place when the
key exists, append a fresh entry otherwise. -/
def dictSet {α : Type} (m : List (Str × α)) (k : Str) (v : α) : List (Str × α) :=
  match m with
  | [] => [(k, v)]
  | (k', v') :: rest => if k' = k then (k', v) :: rest else (k', v') :: dictSet rest k v

/-- Python's `os.path.basename` for the paths used here: everything after
the last `/`, or the whole string when there is no `/`. -/
def basename (p : Str) : Str :=
  match splitLast '/' p with
  | some (_, b) => b
  | none => p

/-- The expression `os.path.basename(package).rsplit("-", 3)[0]` used by
`install` and `upgrade` to recover a package name from a file target. -/
def filePkgName (p : Str) : Str :=
  (rsplitN '-' 3 (basename p)).headD []

/-- The expression `line.rsplit("/", 1)[1]` from `_pkglist`; `none` models
the `IndexError` raised when the glob entry holds no `/`. -/
def rsplitSlash1 (line : Str) : Option Str :=
  match rsplitN '/' 1 line with
  | [_, base] => some base
  | _ => none

/-- Embedding of `_pkglist` composed with the per-entry parse: each glob
entry's basename is fed to `_pkginfo`.  The glob result for
`"{prefix}/*"` is passed in as `lines`; errors model the Python
`IndexError`/`ValueError` raised on malformed entries. -/
def pkglistE : List Str → Except PyErr (List PkgInfo)
  | [] => .ok []
  | line :: rest =>
    match rsplitSlash1 line with
    | none => .error .indexError
    | some package =>
      match pkginfo package with
      | none => .error .valueError
      | some info =>
        match pkglistE rest with
        | .error e => .error e
        | .ok infos => .ok (info :: infos)

/-- Model of the opaque external collaborator `pkg_resource.add_pkg`:
`pkgs.setdefault(name, []).append(pkgver)` — append the version to the
list at `name`, creating the entry at the end of the dict if absent. -/
def addPkg (m : List (Str × List Str)) (name ver : Str) : List (Str × List Str) :=
  match m with
  | [] => [(name, [ver])]
  | (k, vs) :: rest =>
    if k = name then (k, vs ++ [ver]) :: rest else (k, vs) :: addPkg rest name ver

/-- Boolean lexicographic strict order on strings, modelling Python's
string comparison (used only inside the sort collaborator model). -/
def strLt : Str → Str → Bool
  | _, [] => false
  | [], _ :: _ => true
  | a :: as, b :: bs => if a < b then true else if b < a then false else strLt as bs

/-- Insert into a sorted list of strings. -/
def insertSorted (x : Str) : List Str → List Str
  | [] => [x]
  | y :: ys => if strLt y x then y :: insertSorted x ys else x :: y :: ys

/-- Insertion sort on lists of strings. -/
def sortStrs (l : List Str) : List Str := l.foldr insertSorted []

/-- Model of the opaque external collaborator `pkg_resource.sort_pkglist`:
`pkgs[key] = sorted(set(pkgs[key]))` for every key. -/
def sortPkgList (m : List (Str × List Str)) : List (Str × List Str) :=
  m.map (fun p => (p.1, sortStrs p.2.dedup))

/-- Model of the opaque external collaborator `pkg_resource.stringify`:
`pkgs[key] = ",".join(pkgs[key])` for every key. -/
def stringify (m : List (Str × List Str)) : List (Str × Str) :=
  m.map (fun p => (p.1, List.intercalate [','] p.2))

/-- The accumulation loop of `list_pkgs`: starting from `ret = {}`, call
`pkg_resource.add_pkg(ret, package[0], "{}-{}".format(package[1],
package[3]))` for each parsed glob entry. -/
def buildRet (infos : List PkgInfo) : List (Str × List Str) :=
  infos.foldl (fun m i => addPkg m i.name (i.version ++ '-' :: i.build)) []

/-- Value of a `list_pkgs` result entry: a version string by default, or a
list of version strings when `versions_as_list` is set. -/
inductive PkgVal where
  | str (s : Str)
  | list (l : List Str)
  deriving DecidableEq

/-- Result dict of `list_pkgs`. -/
abbrev PkgMap := List (Str × PkgVal)

deriving instance DecidableEq for Except

/-- The module-level constant `pkgdb = "var/log/packages"`. -/
def pkgdb : Str := "var/log/packages".data

/-- Embedding of `_list_pkgs_from_context`.  `c` is the cached
`__context__["pkg.list_pkgs"]` dict; `saltHasStringfy` says whether the
`__salt__` collaborator table carries the (misspelled) key
`pkg_resource.stringfy` — the lookup raises `KeyError` when it does not.
When the key were present it is assumed to behave like
`pkg_resource.stringify` on the deep copy. -/
def listPkgsFromContext (versions_as_list : Bool) (c : List (Str × List Str))
    (saltHasStringfy : Bool) : Except PyErr PkgMap :=
  if versions_as_list then .ok (c.map (fun p => (p.1, PkgVal.list p.2)))
  else if saltHasStringfy then
    .ok ((stringify c).map (fun p => (p.1, PkgVal.str p.2)))
  else .error (.keyError "pkg_resource.stringfy".data)

/-- Embedding of `list_pkgs`.  Boolean arguments model the truthiness of
the corresponding kwargs (`removed`, `purge_desired`, `root`,
`use_context`); `ctx` is the optional cached `__context__["pkg.list_pkgs"]`
entry; `fs` is the filesystem collaborator mapping a directory prefix to
the glob result for `"{prefix}/*"`.  The `unboundLocal "root"` error
models the Python `UnboundLocalError`: the local `root` is only assigned
when the `root` kwarg is falsy, yet it is read unconditionally. -/
def list_pkgs (versions_as_list removed purge rootGiven use_context : Bool)
    (ctx : Option (List (Str × List Str))) (saltHasStringfy : Bool)
    (fs : Str → List Str) : Except PyErr PkgMap :=
  if removed || purge then .ok []
  else if rootGiven then .error (.unboundLocal "root".data)
  else
    let pfx := "/".data ++ pkgdb
    match ctx, use_context with
    | some c, true => listPkgsFromContext versions_as_list c saltHasStringfy
    | _, _ =>
      match pkglistE (fs pfx) with
      | .error e => .error e
      | .ok infos =>
        let ret := sortPkgList (buildRet infos)
        if versions_as_list then .ok (ret.map (fun p => (p.1, PkgVal.list p.2)))
        else .ok ((stringify ret).map (fun p => (p.1, PkgVal.str p.2)))

/-- The marker filename encoding a package record:
`name-version-arch-build`. -/
def markerName (r : PkgInfo) : Str :=
  r.name ++ '-' :: r.version ++ '-' :: r.arch ++ '-' :: r.build

/-- Well-formedness of a marker record: the last three fields are
dash-free and the filename holds no slash. -/
def CleanRec (r : PkgInfo) : Prop :=
  '-' ∉ r.version ∧ '-' ∉ r.arch ∧ '-' ∉ r.build ∧ '/' ∉ markerName r

instance (r : PkgInfo) : Decidable (CleanRec r) := by
  unfold CleanRec; infer_instance

theorem pkginfo_markerName {r : PkgInfo} (hv : '-' ∉ r.version)
    (ha : '-' ∉ r.arch) (hb : '-' ∉ r.build) :
    pkginfo (markerName r) = some r := by
  have h1 := splitLast_append_cons (c := '-')
    (r.name ++ '-' :: r.version ++ '-' :: r.arch) hb
  have h2 := splitLast_append_cons (c := '-') (r.name ++ '-' :: r.version) ha
  have h3 := splitLast_append_cons (c := '-') r.name hv
  have e1 : rsplitN '-' 3 (markerName r)
      = rsplitN '-' 2 (r.name ++ '-' :: r.version ++ '-' :: r.arch) ++ [r.build] :=
    rsplitN_succ_of_some 2 h1
  have e2 : rsplitN '-' 2 (r.name ++ '-' :: r.version ++ '-' :: r.arch)
      = rsplitN '-' 1 (r.name ++ '-' :: r.version) ++ [r.arch] :=
    rsplitN_succ_of_some 1 h2
  have e3 : rsplitN '-' 1 (r.name ++ '-' :: r.version)
      = rsplitN '-' 0 r.name ++ [r.version] :=
    rsplitN_succ_of_some 0 h3
  rw [pkginfo, e1, e2, e3, rsplitN_zero]
  rfl

theorem rsplitSlash1_append (dir fname : Str) (h : '/' ∉ fname) :
    rsplitSlash1 (dir ++ '/' :: fname) = some fname := by
  have h1 := splitLast_append_cons (c := '/') dir h
  have e : rsplitN '/' 1 (dir ++ '/' :: fname) = rsplitN '/' 0 dir ++ [fname] :=
    rsplitN_succ_of_some 0 h1
  rw [rsplitSlash1, e, rsplitN_zero]
  rfl

theorem pkglistE_glob (dir : Str) (rs : List PkgInfo)
    (hclean : ∀ r ∈ rs, CleanRec r) :
    pkglistE (rs.map (fun r => dir ++ '/' :: markerName r)) = .ok rs := by
  induction rs with
  | nil => rfl
  | cons r rest ih =>
    obtain ⟨hv, ha, hb, hs⟩ := hclean r (List.mem_cons_self r rest)
    have ihr := ih (fun q hq => hclean q (List.mem_cons_of_mem r hq))
    simp only [List.map_cons, pkglistE, rsplitSlash1_append dir _ hs,
      pkginfo_markerName hv ha hb, ihr]

theorem lookupStr_append {α : Type} (k : Str) (xs ys : List (Str × α)) :
    lookupStr k (xs ++ ys) =
      match lookupStr k xs with
      | some v => some v
      | none => lookupStr k ys := by
  induction xs with
  | nil => rfl
  | cons p rest ih =>
    obtain ⟨k', v⟩ := p
    by_cases hk : k' = k
    · simp [lookupStr, hk]
    · simp [lookupStr, hk, ih]

theorem addPkg_not_mem {m : List (Str × List Str)} {n : Str} (v : Str)
    (h : lookupStr n m = none) : addPkg m n v = m ++ [(n, [v])] := by
  induction m with
  | nil => rfl
  | cons p rest ih =>
    obtain ⟨k, vs⟩ := p
    rw [lookupStr] at h
    by_cases hk : k = n
    · rw [if_pos hk] at h; cases h
    · rw [if_neg hk] at h
      simp [addPkg, hk, ih h]

theorem foldl_addPkg_fresh (infos : List PkgInfo)
    (acc : List (Str × List Str))
    (hdisj : ∀ i ∈ infos, lookupStr i.name acc = none)
    (hnd : (infos.map PkgInfo.name).Nodup) :
    infos.foldl (fun m i => addPkg m i.name (i.version ++ '-' :: i.build)) acc
      = acc ++ infos.map (fun i => (i.name, [i.version ++ '-' :: i.build])) := by
  induction infos generalizing acc with
  | nil => simp
  | cons i rest ih =>
    have hfresh : lookupStr i.name acc = none :=
      hdisj i (List.mem_cons_self i rest)
    rw [List.foldl_cons, addPkg_not_mem _ hfresh]
    have hnd' : (rest.map PkgInfo.name).Nodup := (List.nodup_cons.mp hnd).2
    have hni : i.name ∉ rest.map PkgInfo.name := (List.nodup_cons.mp hnd).1
    have hdisj' : ∀ j ∈ rest,
        lookupStr j.name (acc ++ [(i.name, [i.version ++ '-' :: i.build])]) = none := by
      intro j hj
      rw [lookupStr_append, hdisj j (List.mem_cons_of_mem i hj)]
      have hne : i.name ≠ j.name := by
        intro he
        exact hni (he ▸ List.mem_map_of_mem PkgInfo.name hj)
      simp [lookupStr, hne]
    rw [ih _ hdisj' hnd']
    simp

theorem buildRet_nodup (infos : List PkgInfo)
    (hnd : (infos.map PkgInfo.name).Nodup) :
    buildRet infos = infos.map (fun i => (i.name, [i.version ++ '-' :: i.build])) := by
  rw [buildRet, foldl_addPkg_fresh infos [] (fun _ _ => rfl) hnd]
  simp

theorem sortPkgList_map_single (infos : List PkgInfo) :
    sortPkgList (infos.map (fun i => (i.name, [i.version ++ '-' :: i.build])))
      = infos.map (fun i => (i.name, [i.version ++ '-' :: i.build])) := by
  rw [sortPkgList, List.map_map]
  apply List.map_congr_left
  intro i _
  rfl

theorem stringify_map_single (infos : List PkgInfo) :
    stringify (infos.map (fun i => (i.name, [i.version ++ '-' :: i.build])))
      = infos.map (fun i => (i.name, i.version ++ '-' :: i.build)) := by
  rw [stringify, List.map_map]
  apply List.map_congr_left
  intro i _
  simp [List.intercalate]

theorem lookupStr_map_single {α : Type} (f : PkgInfo → α)
    {infos : List PkgInfo} {r : PkgInfo} (hr : r ∈ infos)
    (hnd : (infos.map PkgInfo.name).Nodup) :
    lookupStr r.name (infos.map (fun i => (i.name, f i))) = some (f r) := by
  induction infos with
  | nil => cases hr
  | cons i rest ih =>
    rcases List.mem_cons.mp hr with he | hm
    · subst he
      simp [lookupStr]
    · have hni : i.name ∉ rest.map PkgInfo.name := (List.nodup_cons.mp hnd).1
      have hne : i.name ≠ r.name := by
        intro he
        exact hni (he ▸ List.mem_map_of_mem PkgInfo.name hm)
      rw [List.map_cons, lookupStr, if_neg hne]
      exact ih hm (List.nodup_cons.mp hnd).2

/-- C3: with no cached context and falsy `removed`/`purge_desired`/`root`
kwargs, `list_pkgs` globs the fixed directory `var/log/packages` under
root `/`, and for every marker filename of the form
`name-version-arch-build` in that directory the returned mapping has key
`name` and that package's version string `version-build` as its value — a
plain string by default, a singleton list when `versions_as_list` is
true. -/
theorem list_pkgs_from_markers (rs : List PkgInfo) (salt : Bool)
    (fs : Str → List Str)
    (hfs : fs "/var/log/packages".data =
      rs.map (fun r => "/var/log/packages".data ++ '/' :: markerName r))
    (hclean : ∀ r ∈ rs, CleanRec r)
    (hnd : (rs.map PkgInfo.name).Nodup) :
    (∃ m, list_pkgs false false false false true none salt fs = .ok m ∧
      ∀ r ∈ rs, lookupStr r.name m =
        some (.str (r.version ++ '-' :: r.build))) ∧
    (∃ m, list_pkgs true false false false true none salt fs = .ok m ∧
      ∀ r ∈ rs, lookupStr r.name m =
        some (.list [r.version ++ '-' :: r.build])) := by
  have hdir : ("/".data ++ pkgdb) = "/var/log/packages".data := rfl
  have hpk : pkglistE (fs ("/".data ++ pkgdb)) = .ok rs := by
    rw [hdir, hfs]
    exact pkglistE_glob _ _ hclean
  constructor
  · refine ⟨rs.map (fun i => (i.name, PkgVal.str (i.version ++ '-' :: i.build))),
      ?_, ?_⟩
    · have hrun : list_pkgs false false false false true none salt fs =
          (match pkglistE (fs ("/".data ++ pkgdb)) with
           | .error e => .error e
           | .ok infos =>
             .ok ((stringify (sortPkgList (buildRet infos))).map
               (fun p => (p.1, PkgVal.str p.2)))) := rfl
      rw [hrun, hpk]
      show Except.ok ((stringify (sortPkgList (buildRet rs))).map
          (fun p => (p.1, PkgVal.str p.2))) = _
      rw [buildRet_nodup rs hnd, sortPkgList_map_single, stringify_map_single,
        List.map_map]
      rfl
    · intro r hr
      exact lookupStr_map_single
        (fun i => PkgVal.str (i.version ++ '-' :: i.build)) hr hnd
  · refine ⟨rs.map (fun i => (i.name, PkgVal.list [i.version ++ '-' :: i.build])),
      ?_, ?_⟩
    · have hrun : list_pkgs true false false false true none salt fs =
          (match pkglistE (fs ("/".data ++ pkgdb)) with
           | .error e => .error e
           | .ok infos =>
             .ok ((sortPkgList (buildRet infos)).map
               (fun p => (p.1, PkgVal.list p.2)))) := rfl
      rw [hrun, hpk]
      show Except.ok ((sortPkgList (buildRet rs)).map
          (fun p => (p.1, PkgVal.list p.2))) = _
      rw [buildRet_nodup rs hnd, sortPkgList_map_single, List.map_map]
      rfl
    · intro r hr
      exact lookupStr_map_single
        (fun i => PkgVal.list [i.version ++ '-' :: i.build]) hr hnd

/-- Witness for C3 at a one-marker directory. -/
theorem list_pkgs_from_markers_witness :
    ((fun _ : Str => ["/var/log/packages/foo-1.0-x86_64-1".data])
        "/var/log/packages".data =
      [⟨"foo".data, "1.0".data, "x86_64".data, "1".data⟩].map
        (fun r : PkgInfo => "/var/log/packages".data ++ '/' :: markerName r)) ∧
    (∀ r ∈ [(⟨"foo".data, "1.0".data, "x86_64".data, "1".data⟩ : PkgInfo)],
      CleanRec r) ∧
    (∃ m, list_pkgs false false false false true none false
        (fun _ => ["/var/log/packages/foo-1.0-x86_64-1".data]) = .ok m ∧
      ∀ r ∈ [(⟨"foo".data, "1.0".data, "x86_64".data, "1".data⟩ : PkgInfo)],
        lookupStr r.name m = some (.str (r.version ++ '-' :: r.build))) :=
  ⟨by decide, by decide,
    (list_pkgs_from_markers
      [⟨"foo".data, "1.0".data, "x86_64".data, "1".data⟩] false
      (fun _ => ["/var/log/packages/foo-1.0-x86_64-1".data])
      (by decide) (by decide) (by decide)).1⟩

/-- C9 counterexample: a call with a truthy `root` kwarg CAN complete
normally — when `removed` is also truthy the function returns `{}` on
line 101 before the unbound local `root` is ever read.  This refutes the
claim's final clause "list_pkgs completes normally only when 'root' is
absent or falsy". -/
theorem list_pkgs_truthy_root_completes :
    list_pkgs false true false true true none true (fun _ => []) = .ok [] := rfl

/-- C9 (amended): with `removed`/`purge_desired` falsy, a truthy `root`
kwarg makes `list_pkgs` fail with an unbound-variable error (whatever the
context cache holds); with `removed` or `purge_desired` truthy it instead
returns `{}` before `root` is read, so it can complete normally even with
a truthy `root`. -/
theorem list_pkgs_root_unbound :
    (∀ (val uc salt : Bool) (ctx : Option (List (Str × List Str)))
        (fs : Str → List Str),
      list_pkgs val false false true uc ctx salt fs =
        .error (.unboundLocal "root".data)) ∧
    (∀ (val rg uc salt : Bool) (ctx : Option (List (Str × List Str)))
        (fs : Str → List Str),
      list_pkgs val true false rg uc ctx salt fs = .ok [] ∧
      list_pkgs val false true rg uc ctx salt fs = .ok []) :=
  ⟨fun _ _ _ _ _ => rfl, fun _ _ _ _ _ _ => ⟨rfl, rfl⟩⟩

/-- C10: when the context cache holds a `pkg.list_pkgs` entry and
`versions_as_list` is false, the cached path looks up the misspelled
collaborator key `pkg_resource.stringfy`; under a collaborator table
providing only the correctly spelled helper the call fails with a
`KeyError`, so `list_pkgs` never returns a stringified copy of the cached
mapping. -/
theorem list_pkgs_cached_stringfy_typo :
    ∀ (c : List (Str × List Str)) (fs : Str → List Str),
      list_pkgs false false false false true (some c) false fs =
        .error (.keyError "pkg_resource.stringfy".data) :=
  fun _ _ => rfl

/-- C4 counterexample: two `list_pkgs` calls with identical arguments and
identical filesystem-collaborator responses return different results
depending on what a previous invocation stored in the cross-call context
cache: with a cached `pkg.list_pkgs` entry the cache is returned, without
it the glob result is.  This refutes the claimed statelessness. -/
theorem list_pkgs_depends_on_context :
    list_pkgs true false false false true (some [("foo".data, ["1-1".data])])
        true (fun _ => ["/var/log/packages/bar-2-x86_64-1".data]) ≠
      list_pkgs true false false false true none
        true (fun _ => ["/var/log/packages/bar-2-x86_64-1".data]) := by
  decide

/-- C4 (amended): every operation is a pure function of its arguments and
of the collaborators' responses, except that `list_pkgs` additionally
consults the cross-call context cache `pkg.list_pkgs`; when `use_context`
is falsy the cache is ignored and the result of `list_pkgs` is independent
of anything previous invocations stored there. -/
theorem list_pkgs_stateless_without_context :
    ∀ (val rem pur rg salt : Bool)
      (ctx ctx' : Option (List (Str × List Str))) (fs : Str → List Str),
      list_pkgs val rem pur rg false ctx salt fs =
        list_pkgs val rem pur rg false ctx' salt fs := by
  intro val rem pur rg salt ctx ctx' fs
  cases rem <;> cases pur <;> cases rg <;> cases ctx <;> cases ctx' <;> rfl

/-- Output of the process-execution collaborator `cmd.run_all`. -/
structure CmdOut where
  retcode : Int
  stdout : Str
  stderr : Str

/-- Operation environment: `runAll k cmd` is the collaborator's response
to the `k`-th command an operation executes; `listPkgsAt k` is the
installed-package mapping `list_pkgs()` reports once `k` commands have
run. -/
structure Env where
  runAll : Nat → Str → CmdOut
  listPkgsAt : Nat → List (Str × Str)

/-- Trace events: execution of the `k`-th external command, and one
inspection site of the `k`-th command's exit code. -/
inductive Ev where
  | exec (k : Nat) (cmd : Str)
  | check (k : Nat)
  deriving DecidableEq

/-- Commands executed, read off an event trace. -/
def cmdsOf (evs : List Ev) : List Str :=
  evs.filterMap (fun e =>
    match e with
    | .exec _ c => some c
    | .check _ => none)

/-- The change mapping produced by the host's diff collaborator:
`(key, old-version, new-version)` triples. -/
abbrev Changes := List (Str × Str × Str)

/-- Result of install/upgrade/remove: a normal return with the change
dict, a raised `CommandExecutionError` carrying
`{"changes": .., "errors": ..}`, or an uncaught Python runtime error. -/
inductive OpRes where
  | ok (changes : Changes)
  | raised (changes : Changes) (errors : List Str)
  | pyerr (e : PyErr)
  deriving DecidableEq

/-- Model of the opaque external collaborator
`salt.utils.data.compare_dicts` (the spec's ChangeSet): for every key of
either dict whose values differ, a `(key, old, new)` entry with `""` for
the missing side; keys are visited in first-seen order of `new` then
`old`. -/
def compare_dicts (old new : List (Str × Str)) : Changes :=
  ((new.map Prod.fst) ++ (old.map Prod.fst)).dedup.filterMap (fun k =>
    match lookupStr k old, lookupStr k new with
    | none, some nv => some (k, ([], nv))
    | some ov, none => some (k, (ov, []))
    | some ov, some nv => if ov = nv then none else some (k, (ov, nv))
    | none, none => none)

/-- Common epilogue of install/upgrade/remove: read `new = list_pkgs()`
after the `k` commands, diff against `old` with `compare_dicts`, and
either return the changes or raise with them attached. -/
def finishOp (old : List (Str × Str)) (env : Env) (k : Nat)
    (errors : List Str) : OpRes :=
  let ret := compare_dicts old (env.listPkgsAt k)
  if errors = [] then .ok ret else .raised ret errors

/-- The `pkg_type` discriminator returned by `pkg_resource.parse_targets`
(the Python code compares it with the strings "file" and "repository"). -/
inductive PkgType where
  | file
  | repository
  | other (s : Str)
  deriving DecidableEq

/-- The string form of a `pkg_type`, used in the unsupported-type error
message. -/
def pkgTypeStr : PkgType → Str
  | .file => "file".data
  | .repository => "repository".data
  | .other s => s

/-- The command head `"/usr/sbin/slackpkg -batch=on -default_answer=y "`. -/
def slackpkgCmd : Str := "/usr/sbin/slackpkg -batch=on -default_answer=y ".data

/-- Embedding of `refresh_db`'s result: `ret` is the Python
None/False/True encoded as `Option Bool`; on errors a
`CommandExecutionError` is raised with `ret` attached as the changes. -/
inductive RefreshRes where
  | ok (ret : Option Bool)
  | raised (ret : Option Bool) (errors : List Str)
  deriving DecidableEq

/-- Embedding of `refresh_db`: run `slackpkg check-updates` (retcode 100 →
updates available, 1 → error recorded), then on `True` run the
`slackpkg ... update` command, recording its stderr on retcode 1. -/
def refresh_db (env : Env) : RefreshRes × List Ev :=
  let cmd1 := "/usr/sbin/slackpkg check-updates".data
  let out1 := env.runAll 0 cmd1
  let ret : Option Bool :=
    if out1.retcode = 100 then some true
    else if out1.retcode = 1 then some false
    else none
  let errs1 : List Str :=
    if out1.retcode = 100 then []
    else if out1.retcode = 1 then [out1.stderr] else []
  if ret = some true then
    let cmd2 := slackpkgCmd ++ "update".data
    let out2 := env.runAll 1 cmd2
    let errs2 := errs1 ++ (if out2.retcode = 1 then [out2.stderr] else [])
    (if errs2 = [] then .ok ret else .raised ret errs2,
      [.exec 0 cmd1, .check 0, .exec 1 cmd2, .check 1])
  else
    (if errs1 = [] then .ok ret else .raised ret errs1,
      [.exec 0 cmd1, .check 0])

/-- The per-package loop of `remove`: run `/sbin/removepkg <name>` for
each requested package present in `old`, appending stderr to the errors
when the exit code is nonzero.  Returns the final command counter, the
accumulated errors and the event trace. -/
def removeLoop (old : List (Str × Str)) (env : Env) :
    List Str → Nat → Nat × List Str × List Ev
  | [], k => (k, [], [])
  | p :: rest, k =>
    if (lookupStr p old).isSome then
      let cmd := "/sbin/removepkg ".data ++ p
      let out := env.runAll k cmd
      let e : List Str := if out.retcode ≠ 0 then [out.stderr] else []
      let r := removeLoop old env rest (k + 1)
      (r.1, e ++ r.2.1, .exec k cmd :: .check k :: r.2.2)
    else removeLoop old env rest k

/-- Embedding of `remove`, taking the already-resolved target list
(`split_input(pkgs) if pkgs else [name]`). -/
def remove (packages : List Str) (env : Env) : OpRes × List Ev :=
  if packages = [] then (.ok [], [])
  else
    let old := env.listPkgsAt 0
    let r := removeLoop old env packages 0
    (finishOp old env r.1 r.2.1, r.2.2)

/-- The file-target loop of `install`: skip targets whose basename-derived
name is already installed (unless `reinstall`), otherwise run
`/sbin/installpkg <path>`, appending stderr on a nonzero exit code. -/
def installFileLoop (old : List (Str × Str)) (env : Env) (reinstall : Bool) :
    List Str → Nat → Nat × List Str × List Ev
  | [], k => (k, [], [])
  | p :: rest, k =>
    if !reinstall && (lookupStr (filePkgName p) old).isSome then
      installFileLoop old env reinstall rest k
    else
      let cmd := "/sbin/installpkg ".data ++ p
      let out := env.runAll k cmd
      let e : List Str := if out.retcode ≠ 0 then [out.stderr] else []
      let r := installFileLoop old env reinstall rest (k + 1)
      (r.1, e ++ r.2.1, .exec k cmd :: .check k :: r.2.2)

/-- The string `to_install` built by `install`'s repository branch:
`package + " "` concatenated over the targets not yet installed. -/
def toInstall (old : List (Str × Str)) (params : List Str) : Str :=
  (params.filter (fun p => (lookupStr p old).isNone)).foldl
    (fun acc p => acc ++ p ++ [' ']) []

/-- The string `to_reinstall` built by `install`'s repository branch when
`reinstall` is set: `package + " "` over the already-installed targets. -/
def toReinstall (old : List (Str × Str)) (params : List Str) : Str :=
  (params.filter (fun p => (lookupStr p old).isSome)).foldl
    (fun acc p => acc ++ p ++ [' ']) []

/-- Embedding of `install` from the point where
`pkg_resource.parse_targets` has produced `pkg_params`/`pkg_type` and
`refresh` is falsy (`refresh_db` is modelled separately). -/
def install (pkg_type : PkgType) (params : List Str) (reinstall : Bool)
    (env : Env) : OpRes × List Ev :=
  if params = [] then (.ok [], [])
  else
    let old := env.listPkgsAt 0
    match pkg_type with
    | .file =>
      let r := installFileLoop old env reinstall params 0
      (finishOp old env r.1 r.2.1, r.2.2)
    | .repository =>
      let ti := toInstall old params
      let tr := if reinstall then toReinstall old params else []
      let s1 : Nat × List Str × List Ev :=
        if ti = [] then (0, [], [])
        else
          let cmd := slackpkgCmd ++ "install ".data ++ ti
          let out := env.runAll 0 cmd
          (1, if out.retcode = 1 then [out.stderr] else [],
            [.exec 0 cmd, .check 0])
      let s2 : Nat × List Str × List Ev :=
        if tr = [] then (s1.1, [], [])
        else
          let cmd := slackpkgCmd ++ "reinstall ".data ++ tr
          let out := env.runAll s1.1 cmd
          (s1.1 + 1, if out.retcode = 1 then [out.stderr] else [],
            [.exec s1.1 cmd, .check s1.1])
      (finishOp old env s2.1 (s1.2.1 ++ s2.2.1), s1.2.2 ++ s2.2.2)
    | .other s =>
      let errors := ["Package type ".data ++ s ++
        " not supported by slackpkg".data]
      (finishOp old env 0 errors, [])

/-- The dynamically typed `pkg_params` of `upgrade`: the literal string
`"all system"` when no targets were named, otherwise the target list from
`parse_targets`. -/
inductive ParamsVal where
  | str (s : Str)
  | list (l : List Str)
  deriving DecidableEq

/-- Python iteration over `pkg_params`: iterating a string yields its
characters as one-character strings. -/
def paramsIter : ParamsVal → List Str
  | .list l => l
  | .str s => s.map (fun c => [c])

/-- The file-target loop of `upgrade`: skip targets whose basename-derived
name is NOT installed, otherwise run `/sbin/upgradepkg <path>`, appending
stderr on a nonzero exit code. -/
def upgradeFileLoop (old : List (Str × Str)) (env : Env) :
    List Str → Nat → Nat × List Str × List Ev
  | [], k => (k, [], [])
  | p :: rest, k =>
    if (lookupStr (filePkgName p) old).isSome then
      let cmd := "/sbin/upgradepkg ".data ++ p
      let out := env.runAll k cmd
      let e : List Str := if out.retcode ≠ 0 then [out.stderr] else []
      let r := upgradeFileLoop old env rest (k + 1)
      (r.1, e ++ r.2.1, .exec k cmd :: .check k :: r.2.2)
    else upgradeFileLoop old env rest k

/-- The string `to_upgrade` built by `upgrade`'s targeted repository
branch: `package + " "` over the currently installed targets. -/
def toUpgrade (old : List (Str × Str)) (params : List Str) : Str :=
  (params.filter (fun p => (lookupStr p old).isSome)).foldl
    (fun acc p => acc ++ p ++ [' ']) []

/-- Embedding of `upgrade` from the point where `pkg_params`/`pkg_type`
are fixed and `refresh` is falsy.  The misindented retcode check of
line 441 sits inside the repository branch AFTER its inner if/else, so in
the `upgrade-all` path the same command's exit code is inspected a second
time (duplicating the error entry), and in the targeted path with an
empty `to_upgrade` the local `out` is read unbound. -/
def upgrade (pkg_type : PkgType) (params : ParamsVal) (env : Env) :
    OpRes × List Ev :=
  if params = .list [] then (.ok [], [])
  else
    let old := env.listPkgsAt 0
    match pkg_type with
    | .file =>
      let r := upgradeFileLoop old env (paramsIter params) 0
      (finishOp old env r.1 r.2.1, r.2.2)
    | .repository =>
      if params = .str "all system".data then
        let cmd := slackpkgCmd ++ "upgrade-all".data
        let out := env.runAll 0 cmd
        let e1 : List Str := if out.retcode = 1 then [out.stderr] else []
        let e2 : List Str := if out.retcode = 1 then [out.stderr] else []
        (finishOp old env 1 (e1 ++ e2), [.exec 0 cmd, .check 0, .check 0])
      else
        let tu := toUpgrade old (paramsIter params)
        if tu = [] then (.pyerr (.unboundLocal "out".data), [])
        else
          let cmd := slackpkgCmd ++ "upgrade ".data ++ tu
          let out := env.runAll 0 cmd
          let e : List Str := if out.retcode = 1 then [out.stderr] else []
          (finishOp old env 1 e, [.exec 0 cmd, .check 0])
    | .other s =>
      let errors := ["Package type ".data ++ s ++
        " not supported by slackpkg".data]
      (finishOp old env 0 errors, [])

theorem cmdsOf_exec (k : Nat) (cmd : Str) (evs : List Ev) :
    cmdsOf (.exec k cmd :: evs) = cmd :: cmdsOf evs := rfl

theorem cmdsOf_check (k : Nat) (evs : List Ev) :
    cmdsOf (.check k :: evs) = cmdsOf evs := rfl

theorem removeLoop_cmds (old : List (Str × Str)) (env : Env)
    (ps : List Str) : ∀ k,
    cmdsOf (removeLoop old env ps k).2.2 =
      (ps.filter (fun p => (lookupStr p old).isSome)).map
        (fun p => "/sbin/removepkg ".data ++ p) := by
  induction ps with
  | nil => intro k; rfl
  | cons p rest ih =>
    intro k
    cases hl : lookupStr p old with
    | some v => simp [removeLoop, hl, cmdsOf_exec, cmdsOf_check, ih]
    | none => simp [removeLoop, hl, ih]

theorem installFileLoop_cmds (old : List (Str × Str)) (env : Env)
    (ps : List Str) : ∀ k,
    cmdsOf (installFileLoop old env false ps k).2.2 =
      (ps.filter (fun p => (lookupStr (filePkgName p) old).isNone)).map
        (fun p => "/sbin/installpkg ".data ++ p) := by
  induction ps with
  | nil => intro k; rfl
  | cons p rest ih =>
    intro k
    cases hl : lookupStr (filePkgName p) old with
    | some v => simp [installFileLoop, hl, ih]
    | none => simp [installFileLoop, hl, cmdsOf_exec, cmdsOf_check, ih]

theorem upgradeFileLoop_cmds (old : List (Str × Str)) (env : Env)
    (ps : List Str) : ∀ k,
    cmdsOf (upgradeFileLoop old env ps k).2.2 =
      (ps.filter (fun p => (lookupStr (filePkgName p) old).isSome)).map
        (fun p => "/sbin/upgradepkg ".data ++ p) := by
  induction ps with
  | nil => intro k; rfl
  | cons p rest ih =>
    intro k
    cases hl : lookupStr (filePkgName p) old with
    | some v => simp [upgradeFileLoop, hl, cmdsOf_exec, cmdsOf_check, ih]
    | none => simp [upgradeFileLoop, hl, ih]

/-- C5: the fixed external invocations of the three generic verbs.
`remove` runs `/sbin/removepkg <name>` once per requested package that is
installed and nothing for the others; `install` (with `reinstall` unset)
runs `/sbin/installpkg <path>` per file target not already installed and a
single `/usr/sbin/slackpkg -batch=on -default_answer=y install <names>`
for the repository targets not yet installed (no command when there are
none); `upgrade` runs `/sbin/upgradepkg <path>` per installed file target
and a single `... upgrade <names>` over the installed repository targets,
or `... upgrade-all` when no targets are named. -/
theorem ops_run_fixed_commands :
    (∀ (env : Env) (packages : List Str),
      cmdsOf (remove packages env).2 =
        (packages.filter (fun p => (lookupStr p (env.listPkgsAt 0)).isSome)).map
          (fun p => "/sbin/removepkg ".data ++ p)) ∧
    (∀ (env : Env) (params : List Str),
      cmdsOf (install .file params false env).2 =
        (params.filter
          (fun p => (lookupStr (filePkgName p) (env.listPkgsAt 0)).isNone)).map
          (fun p => "/sbin/installpkg ".data ++ p)) ∧
    (∀ (env : Env) (params : List Str),
      cmdsOf (install .repository params false env).2 =
        (if toInstall (env.listPkgsAt 0) params = [] then []
         else [slackpkgCmd ++ "install ".data ++
           toInstall (env.listPkgsAt 0) params])) ∧
    (∀ (env : Env) (params : List Str),
      cmdsOf (upgrade .file (.list params) env).2 =
        (params.filter
          (fun p => (lookupStr (filePkgName p) (env.listPkgsAt 0)).isSome)).map
          (fun p => "/sbin/upgradepkg ".data ++ p)) ∧
    (∀ (env : Env) (params : List Str),
      cmdsOf (upgrade .repository (.list params) env).2 =
        (if toUpgrade (env.listPkgsAt 0) params = [] then []
         else [slackpkgCmd ++ "upgrade ".data ++
           toUpgrade (env.listPkgsAt 0) params])) ∧
    (∀ env : Env,
      cmdsOf (upgrade .repository (.str "all system".data) env).2 =
        [slackpkgCmd ++ "upgrade-all".data]) := by
  refine ⟨?_, ?_, ?_, ?_, ?_, ?_⟩
  · intro env packages
    by_cases hp : packages = []
    · subst hp; rfl
    · simp [remove, hp, removeLoop_cmds]
  · intro env params
    by_cases hp : params = []
    · subst hp; rfl
    · simp [install, hp, installFileLoop_cmds]
  · intro env params
    by_cases hp : params = []
    · subst hp; rfl
    · simp only [install, if_neg hp]
      by_cases hti : toInstall (env.listPkgsAt 0) params = []
      · simp [hti, cmdsOf]
      · simp [hti, cmdsOf]
  · intro env params
    by_cases hp : params = []
    · subst hp; rfl
    · simp [upgrade, hp, paramsIter, upgradeFileLoop_cmds]
  · intro env params
    by_cases hp : params = []
    · subst hp; rfl
    · have hne : (ParamsVal.list params) ≠ .list [] := by
        intro he; exact hp (by injection he)
      simp only [upgrade, if_neg hne]
      by_cases htu : toUpgrade (env.listPkgsAt 0) params = []
      · simp [htu, paramsIter, cmdsOf]
      · simp [htu, paramsIter, cmdsOf]
  · intro env
    rfl

/-- C1 at the failing input (code bug): `upgrade` with repository targets
of which none is installed executes no external command and records no
error, yet instead of returning the change mapping
`compare_dicts(old, new)` it raises an unbound-variable error on the
misindented retcode check of line 441 (`out` was never assigned). -/
theorem upgrade_no_installed_targets_unbound :
    upgrade .repository (.list ["foo".data])
        ⟨fun _ _ => ⟨0, [], []⟩, fun _ => []⟩ =
      (.pyerr (.unboundLocal "out".data), []) := by
  decide

/-- C6 at the failing input (code bug): in `upgrade`'s `upgrade-all` path
a single failing command (exit code 1) has its exit code inspected twice —
once at line 423 and once at the misindented line 441 — so its stderr is
recorded as two error entries. -/
theorem upgrade_all_double_check :
    upgrade .repository (.str "all system".data)
        ⟨fun _ _ => ⟨1, [], "boom".data⟩, fun _ => []⟩ =
      (.raised [] ["boom".data, "boom".data],
        [.exec 0 ("/usr/sbin/slackpkg -batch=on -default_answer=y upgrade-all".data),
         .check 0, .check 0]) := by
  decide

/-- Boolean prefix test on character lists. -/
def isPre : Str → Str → Bool
  | [], _ => true
  | _ :: _, [] => false
  | a :: as, b :: bs => a == b && isPre as bs

/-- Python substring containment `needle in hay`. -/
def isSubstr (needle : Str) : Str → Bool
  | [] => needle.isEmpty
  | a :: rest => isPre needle (a :: rest) || isSubstr needle rest

/-- Python `line.split(" ")`: split on every single space, keeping empty
fields. -/
def splitChar (c : Char) : Str → List Str
  | [] => [[]]
  | a :: rest =>
    if a = c then [] :: splitChar c rest
    else
      match splitChar c rest with
      | h :: t => (a :: h) :: t
      | [] => [[a]]

/-- The test `any(" " + package + " " in line for package in packages)`
guarding `latest_version`'s parsing of a line. -/
def lineMatches (packages : List Str) (line : Str) : Bool :=
  packages.any (fun p => isSubstr (' ' :: p ++ [' ']) line)

/-- Result of `latest_version`: a single version string when one package
was requested, a dict otherwise. -/
inductive LVRes where
  | single (s : Str)
  | dict (d : List (Str × Str))
  deriving DecidableEq

/-- The parsing loop of `latest_version` over the lines of
`/var/lib/slackpkg/pkglist`: each line containing `" <package> "` for a
requested package is split on single spaces and unpacked as
`_, pkgname, version, _, build, _, _, _` (a `ValueError` unless exactly
eight fields); `ret[pkgname]` becomes `version-build`, or `""` when that
equals `localpkgs[pkgname]` (a `KeyError` when `pkgname` is not
installed). -/
def lvLoop (packages : List Str) (localpkgs : List (Str × Str)) :
    List Str → List (Str × Str) → Except PyErr (List (Str × Str))
  | [], ret => .ok ret
  | line :: rest, ret =>
    if lineMatches packages line then
      match splitChar ' ' line with
      | [_, pkgname, version, _, build, _, _, _] =>
        let pkgversion := version ++ '-' :: build
        match lookupStr pkgname localpkgs with
        | none => .error (.keyError pkgname)
        | some lv =>
          lvLoop packages localpkgs rest
            (dictSet ret pkgname (if lv = pkgversion then [] else pkgversion))
      | _ => .error .valueError
    else lvLoop packages localpkgs rest ret

/-- Embedding of `latest_version` after the refresh and `list_pkgs` steps
(modelled separately): `packages` are the requested names, `fileLines` the
lines of the flat package-list file, `localpkgs` the installed mapping.
With no packages the empty string is returned; with exactly one, the
single entry `ret[packages[0]]` is returned instead of the dict. -/
def latest_version (packages : List Str) (fileLines : List Str)
    (localpkgs : List (Str × Str)) : Except PyErr LVRes :=
  if packages = [] then .ok (.single [])
  else
    match lvLoop packages localpkgs fileLines [] with
    | .error e => .error e
    | .ok ret =>
      match packages with
      | [p] =>
        match lookupStr p ret with
        | some v => .ok (.single v)
        | none => .error (.keyError p)
      | _ => .ok (.dict ret)

/-- The second space-separated field of a line (0-based index 1): the
package name `latest_version` reads off a matched line. -/
def lineName (l : Str) : Str := (splitChar ' ' l).getD 1 []

/-- The third space-separated field (index 2): the version. -/
def lineVersion (l : Str) : Str := (splitChar ' ' l).getD 2 []

/-- The fifth space-separated field (index 4): the build. -/
def lineBuild (l : Str) : Str := (splitChar ' ' l).getD 4 []

/-- The value `latest_version` records for a matched line:
`version-build`, or `""` when that equals the installed version of the
line's package name. -/
def lineValue (localpkgs : List (Str × Str)) (l : Str) : Str :=
  if lookupStr (lineName l) localpkgs =
      some (lineVersion l ++ '-' :: lineBuild l)
  then [] else lineVersion l ++ '-' :: lineBuild l

/-- The dict built by `latest_version`'s loop, as a left fold with
last-write-wins dict updates over the matched lines. -/
def lvProcessed (packages : List Str) (localpkgs : List (Str × Str))
    (lines : List Str) : List (Str × Str) :=
  lines.foldl (fun ret l =>
    if lineMatches packages l then
      dictSet ret (lineName l) (lineValue localpkgs l)
    else ret) []

theorem lookupStr_dictSet_self {α : Type} (m : List (Str × α)) (k : Str)
    (v : α) : lookupStr k (dictSet m k v) = some v := by
  induction m with
  | nil => simp [dictSet, lookupStr]
  | cons p rest ih =>
    obtain ⟨k', v'⟩ := p
    by_cases hk : k' = k
    · simp [dictSet, lookupStr, hk]
    · simp [dictSet, lookupStr, hk, ih]

theorem lookupStr_dictSet_other {α : Type} (m : List (Str × α)) {k k' : Str}
    (v : α) (h : k' ≠ k) : lookupStr k (dictSet m k' v) = lookupStr k m := by
  induction m with
  | nil => simp [dictSet, lookupStr, h]
  | cons p rest ih =>
    obtain ⟨k0, v0⟩ := p
    by_cases hk : k0 = k'
    · subst hk
      simp [dictSet, lookupStr, h]
    · by_cases hk2 : k0 = k
      · simp [dictSet, lookupStr, hk, hk2, Ne.symm h]
      · simp [dictSet, lookupStr, hk, hk2, ih]

theorem list_len8 {α : Type} (xs : List α) (h : xs.length = 8) :
    ∃ a b c d e f g i, xs = [a, b, c, d, e, f, g, i] := by
  rcases xs with _ | ⟨a, xs⟩; · simp at h
  rcases xs with _ | ⟨b, xs⟩; · simp at h
  rcases xs with _ | ⟨c, xs⟩; · simp at h
  rcases xs with _ | ⟨d, xs⟩; · simp at h
  rcases xs with _ | ⟨e, xs⟩; · simp at h
  rcases xs with _ | ⟨f, xs⟩; · simp at h
  rcases xs with _ | ⟨g, xs⟩; · simp at h
  rcases xs with _ | ⟨i, xs⟩; · simp at h
  rcases xs with _ | ⟨j, xs⟩
  · exact ⟨a, b, c, d, e, f, g, i, rfl⟩
  · simp at h

theorem lvLoop_eq_fold (packages : List Str) (localpkgs : List (Str × Str))
    (lines : List Str)
    (h8 : ∀ l ∈ lines, lineMatches packages l = true →
      (splitChar ' ' l).length = 8)
    (hloc : ∀ l ∈ lines, lineMatches packages l = true →
      (lookupStr (lineName l) localpkgs).isSome) :
    ∀ ret0, lvLoop packages localpkgs lines ret0 =
      .ok (lines.foldl (fun ret l =>
        if lineMatches packages l then
          dictSet ret (lineName l) (lineValue localpkgs l)
        else ret) ret0) := by
  induction lines with
  | nil => intro ret0; rfl
  | cons l rest ih =>
    intro ret0
    have ih' := ih (fun x hx => h8 x (List.mem_cons_of_mem l hx))
      (fun x hx => hloc x (List.mem_cons_of_mem l hx))
    by_cases hm : lineMatches packages l = true
    · obtain ⟨a, b, c, d, e, f, g, i, hsp⟩ :=
        list_len8 _ (h8 l (List.mem_cons_self l rest) hm)
      have hn : lineName l = b := by rw [lineName, hsp]; rfl
      have hver : lineVersion l = c := by rw [lineVersion, hsp]; rfl
      have hbld : lineBuild l = e := by rw [lineBuild, hsp]; rfl
      obtain ⟨lv, hlv⟩ :=
        Option.isSome_iff_exists.mp (hloc l (List.mem_cons_self l rest) hm)
      rw [hn] at hlv
      have hval : lineValue localpkgs l =
          if lv = c ++ '-' :: e then [] else c ++ '-' :: e := by
        rw [lineValue, hn, hver, hbld, hlv]
        by_cases hq : lv = c ++ '-' :: e
        · simp [hq]
        · simp [hq]
      simp only [lvLoop, if_pos hm, hsp, hlv, List.foldl_cons, hn, hval]
      exact ih' _
    · simp only [lvLoop, if_neg hm, List.foldl_cons]
      exact ih' ret0

theorem lvFold_unchanged (packages : List Str) (localpkgs : List (Str × Str))
    (n : Str) :
    ∀ lines : List Str, ∀ ret0 : List (Str × Str),
      (∀ l ∈ lines, lineMatches packages l = true → lineName l ≠ n) →
      lookupStr n (lines.foldl (fun ret l =>
        if lineMatches packages l then
          dictSet ret (lineName l) (lineValue localpkgs l)
        else ret) ret0) = lookupStr n ret0 := by
  intro lines
  induction lines with
  | nil => intro ret0 h; rfl
  | cons l rest ih =>
    intro ret0 h
    rw [List.foldl_cons]
    by_cases hm : lineMatches packages l = true
    · rw [if_pos hm, ih _ (fun x hx => h x (List.mem_cons_of_mem l hx)),
        lookupStr_dictSet_other _ _ (h l (List.mem_cons_self l rest) hm)]
    · rw [if_neg hm]
      exact ih _ (fun x hx => h x (List.mem_cons_of_mem l hx))

theorem lvFold_lookup_last (packages : List Str)
    (localpkgs : List (Str × Str)) (n v : Str) :
    ∀ lines : List Str, ∀ ret0 : List (Str × Str),
      (∃ l ∈ lines, lineMatches packages l = true ∧ lineName l = n) →
      (∀ l ∈ lines, lineMatches packages l = true → lineName l = n →
        lineValue localpkgs l = v) →
      lookupStr n (lines.foldl (fun ret l =>
        if lineMatches packages l then
          dictSet ret (lineName l) (lineValue localpkgs l)
        else ret) ret0) = some v := by
  intro lines
  induction lines with
  | nil =>
    intro ret0 hex _
    rcases hex with ⟨l, hl, _⟩
    exact absurd hl (List.not_mem_nil l)
  | cons l rest ih =>
    intro ret0 hex hagree
    rw [List.foldl_cons]
    by_cases hrest : ∃ x ∈ rest, lineMatches packages x = true ∧ lineName x = n
    · exact ih _ hrest (fun x hx => hagree x (List.mem_cons_of_mem l hx))
    · rcases hex with ⟨l0, hl0, hm0, hn0⟩
      rcases List.mem_cons.mp hl0 with he | hmem
      · subst he
        rw [if_pos hm0, hn0,
          hagree l0 (List.mem_cons_self l0 rest) hm0 hn0]
        have hno : ∀ x ∈ rest, lineMatches packages x = true → lineName x ≠ n :=
          fun x hx hmx hnx => hrest ⟨x, hx, hmx, hnx⟩
        rw [lvFold_unchanged packages localpkgs n rest _ hno,
          lookupStr_dictSet_self]
      · exact absurd ⟨l0, hmem, hm0, hn0⟩ hrest

/-- C7: `latest_version` parses the flat package-list file line by line:
every line containing `" <package> "` for a requested package is split on
single spaces into exactly eight fields (hypotheses `h8`/`hloc` state the
well-formedness the code requires: eight fields, and the line's name
installed); the second field is the package name, the third and fifth its
version and build, and the resulting dict maps that name to
`version-build` — or to `""` when that equals the installed version (last
matched line winning).  When two or more packages are requested the dict
is returned; when exactly one is requested, the single value is returned
instead. -/
theorem latest_version_parses (packages lines : List Str)
    (localpkgs : List (Str × Str))
    (h8 : ∀ l ∈ lines, lineMatches packages l = true →
      (splitChar ' ' l).length = 8)
    (hloc : ∀ l ∈ lines, lineMatches packages l = true →
      (lookupStr (lineName l) localpkgs).isSome) :
    (∀ p q rest2, packages = p :: q :: rest2 →
      latest_version packages lines localpkgs =
        .ok (.dict (lvProcessed packages localpkgs lines))) ∧
    (∀ p, packages = [p] → ∀ v,
      lookupStr p (lvProcessed packages localpkgs lines) = some v →
      latest_version packages lines localpkgs = .ok (.single v)) ∧
    (∀ n v,
      (∃ l ∈ lines, lineMatches packages l = true ∧ lineName l = n) →
      (∀ l ∈ lines, lineMatches packages l = true → lineName l = n →
        lineValue localpkgs l = v) →
      lookupStr n (lvProcessed packages localpkgs lines) = some v) := by
  refine ⟨?_, ?_, ?_⟩
  · intro p q rest2 hpk
    subst hpk
    rw [latest_version, if_neg (by simp),
      lvLoop_eq_fold _ _ _ h8 hloc]
    rfl
  · intro p hpk v hv
    subst hpk
    rw [latest_version, if_neg (by simp),
      lvLoop_eq_fold _ _ _ h8 hloc]
    have hv' : lookupStr p (lines.foldl (fun ret l =>
        if lineMatches [p] l then
          dictSet ret (lineName l) (lineValue localpkgs l)
        else ret) []) = some v := hv
    show (match lookupStr p (lines.foldl (fun ret l =>
        if lineMatches [p] l then
          dictSet ret (lineName l) (lineValue localpkgs l)
        else ret) []) with
      | some w => Except.ok (LVRes.single w)
      | none => Except.error (PyErr.keyError p)) = Except.ok (LVRes.single v)
    rw [hv']
  · intro n v hex hagree
    exact lvFold_lookup_last packages localpkgs n v lines [] hex hagree

/-- Witness for C7: one matching, well-formed line; the looked-up version
equals the installed one, so the single returned value is `""`. -/
theorem latest_version_parses_witness :
    (∀ l ∈ [". pkga 1.0 a 1 b c d".data],
      lineMatches ["pkga".data] l = true → (splitChar ' ' l).length = 8) ∧
    (∀ l ∈ [". pkga 1.0 a 1 b c d".data],
      lineMatches ["pkga".data] l = true →
        (lookupStr (lineName l) [("pkga".data, "1.0-1".data)]).isSome) ∧
    latest_version ["pkga".data] [". pkga 1.0 a 1 b c d".data]
        [("pkga".data, "1.0-1".data)] = .ok (.single []) :=
  ⟨by decide, by decide,
    (latest_version_parses ["pkga".data] [". pkga 1.0 a 1 b c d".data]
        [("pkga".data, "1.0-1".data)] (by decide) (by decide)).2.1
      "pkga".data rfl [] (by decide)⟩

/-- The anchored regex `(.*)\.t.z$` of `list_upgrades`, modelled for the
newline-free lines produced by `splitlines()`: a match succeeds exactly
when the line ends in `.t?z` (any character in place of `?`), the group
being everything before those four characters. -/
def matchTz (line : Str) : Option Str :=
  match line.reverse with
  | 'z' :: c :: 't' :: '.' :: restRev => some restRev.reverse
  | _ => none

/-- The parsing loop of `list_upgrades` over the splitlines of the
`slackpkg -batch=on -default_answer=n upgrade-all` dry-run stdout: each
line matching the regex has its stem parsed by `_pkginfo` and sets
`upgrades[name] = version-build`; non-matching lines are skipped. -/
def luLoop : List Str → List (Str × Str) → Except PyErr (List (Str × Str))
  | [], acc => .ok acc
  | l :: ls, acc =>
    match matchTz l with
    | none => luLoop ls acc
    | some stem =>
      match pkginfo stem with
      | none => .error .valueError
      | some r => luLoop ls (dictSet acc r.name (r.version ++ '-' :: r.build))

/-- Embedding of `list_upgrades` after the refresh and the dry-run command
(whose stdout lines are the input). -/
def list_upgrades (lines : List Str) : Except PyErr (List (Str × Str)) :=
  luLoop lines []

theorem matchTz_append (stem : Str) (c : Char) :
    matchTz (stem ++ '.' :: 't' :: c :: 'z' :: []) = some stem := by
  have hrev : (stem ++ '.' :: 't' :: c :: 'z' :: []).reverse
      = 'z' :: c :: 't' :: '.' :: stem.reverse := by simp
  rw [matchTz, hrev]
  simp

theorem matchTz_spec {l stem : Str} (h : matchTz l = some stem) :
    ∃ c, l = stem ++ '.' :: 't' :: c :: 'z' :: [] := by
  rw [matchTz] at h
  split at h
  · next c restRev heq =>
    injection h with h'
    subst h'
    refine ⟨c, ?_⟩
    have hl : l = ('z' :: c :: 't' :: '.' :: restRev).reverse := by
      rw [← heq, List.reverse_reverse]
    rw [hl]
    simp
  · cases h

theorem mem_dictSet {α : Type} {m : List (Str × α)} {k : Str} {v : α}
    {kv : Str × α} (h : kv ∈ dictSet m k v) : kv ∈ m ∨ kv = (k, v) := by
  induction m with
  | nil =>
    rcases List.mem_cons.mp h with h1 | h1
    · exact Or.inr h1
    · exact absurd h1 (List.not_mem_nil kv)
  | cons p rest ih =>
    obtain ⟨k0, v0⟩ := p
    rw [dictSet] at h
    by_cases hk : k0 = k
    · rw [if_pos hk] at h
      rcases List.mem_cons.mp h with h1 | h1
      · subst hk
        exact Or.inr h1
      · exact Or.inl (List.mem_cons_of_mem _ h1)
    · rw [if_neg hk] at h
      rcases List.mem_cons.mp h with h1 | h1
      · exact Or.inl (h1 ▸ List.mem_cons_self _ _)
      · rcases ih h1 with h2 | h2
        · exact Or.inl (List.mem_cons_of_mem _ h2)
        · exact Or.inr h2

theorem lookupStr_dictSet_isSome {α : Type} (m : List (Str × α)) (k : Str)
    (v : α) (n : Str) (h : (lookupStr n m).isSome) :
    (lookupStr n (dictSet m k v)).isSome := by
  by_cases hk : k = n
  · subst hk
    rw [lookupStr_dictSet_self]
    rfl
  · rw [lookupStr_dictSet_other _ _ hk]
    exact h

theorem luLoop_props :
    ∀ lines : List Str,
      (∀ l ∈ lines, ∀ stem, matchTz l = some stem → 3 ≤ stem.count '-') →
      ∀ acc, ∃ d, luLoop lines acc = .ok d ∧
        (∀ kv ∈ d, kv ∈ acc ∨ ∃ l ∈ lines, ∃ stem r,
          matchTz l = some stem ∧ pkginfo stem = some r ∧
          kv = (r.name, r.version ++ '-' :: r.build)) ∧
        (∀ n, (lookupStr n acc).isSome → (lookupStr n d).isSome) ∧
        (∀ l ∈ lines, ∀ stem r, matchTz l = some stem →
          pkginfo stem = some r → (lookupStr r.name d).isSome) := by
  intro lines
  induction lines with
  | nil =>
    intro _ acc
    exact ⟨acc, rfl, fun kv hkv => Or.inl hkv, fun n h => h,
      fun l hl => absurd hl (List.not_mem_nil l)⟩
  | cons l ls ih =>
    intro h3 acc
    cases hm : matchTz l with
    | none =>
      obtain ⟨d, hd, hmem, hpres, hcov⟩ :=
        ih (fun x hx => h3 x (List.mem_cons_of_mem l hx)) acc
      refine ⟨d, ?_, ?_, hpres, ?_⟩
      · simp only [luLoop, hm]
        exact hd
      · intro kv hkv
        rcases hmem kv hkv with h1 | ⟨x, hx, hrest⟩
        · exact Or.inl h1
        · exact Or.inr ⟨x, List.mem_cons_of_mem l hx, hrest⟩
      · intro x hx stem r hms hpr
        rcases List.mem_cons.mp hx with he | hmem2
        · subst he
          rw [hm] at hms
          cases hms
        · exact hcov x hmem2 stem r hms hpr
    | some stem =>
      have hcnt := h3 l (List.mem_cons_self l ls) stem hm
      obtain ⟨r0, hr0, _⟩ := pkginfo_last_three_fields stem hcnt
      obtain ⟨d, hd, hmem, hpres, hcov⟩ :=
        ih (fun x hx => h3 x (List.mem_cons_of_mem l hx))
          (dictSet acc r0.name (r0.version ++ '-' :: r0.build))
      refine ⟨d, ?_, ?_, ?_, ?_⟩
      · simp only [luLoop, hm, hr0]
        exact hd
      · intro kv hkv
        rcases hmem kv hkv with h1 | ⟨x, hx, hrest⟩
        · rcases mem_dictSet h1 with h2 | h2
          · exact Or.inl h2
          · exact Or.inr ⟨l, List.mem_cons_self l ls, stem, r0, hm, hr0, h2⟩
        · exact Or.inr ⟨x, List.mem_cons_of_mem l hx, hrest⟩
      · intro n hn
        exact hpres n (lookupStr_dictSet_isSome _ _ _ _ hn)
      · intro x hx stem' r' hms hpr
        rcases List.mem_cons.mp hx with he | hmem2
        · subst he
          rw [hm] at hms
          injection hms with he2
          subst he2
          rw [hr0] at hpr
          injection hpr with he3
          subst he3
          apply hpres
          rw [lookupStr_dictSet_self]
          rfl
        · exact hcov x hmem2 stem' r' hms hpr

/-- C8: `list_upgrades` parses the dry-run stdout with the regex
`(.*)\.t.z$`: provided every matching line's stem holds at least three
dashes (so `_pkginfo`'s unpacking succeeds), the returned dict's entries
come exactly from the matching lines — every entry stems from a line of
the form `stem.t?z` whose stem splits on its last three `-` fields into
name-version-arch-build and maps the name to `version-build`, every
matching line's name is a key, and non-matching lines contribute
nothing. -/
theorem list_upgrades_parses (lines : List Str)
    (h3 : ∀ l ∈ lines, ∀ stem, matchTz l = some stem → 3 ≤ stem.count '-') :
    ∃ d, list_upgrades lines = .ok d ∧
      (∀ kv ∈ d, ∃ l ∈ lines, ∃ stem r, matchTz l = some stem ∧
        (∃ c, l = stem ++ '.' :: 't' :: c :: 'z' :: []) ∧
        pkginfo stem = some r ∧
        r.name ++ '-' :: r.version ++ '-' :: r.arch ++ '-' :: r.build = stem ∧
        kv = (r.name, r.version ++ '-' :: r.build)) ∧
      (∀ l ∈ lines, ∀ stem r, matchTz l = some stem →
        pkginfo stem = some r → (lookupStr r.name d).isSome) := by
  obtain ⟨d, hd, hmem, _, hcov⟩ := luLoop_props lines h3 []
  refine ⟨d, hd, ?_, hcov⟩
  intro kv hkv
  rcases hmem kv hkv with h1 | ⟨l, hl, stem, r, hms, hpr, hkv2⟩
  · exact absurd h1 (List.not_mem_nil kv)
  · have hcnt := h3 l hl stem hms
    obtain ⟨r2, hr2, hjoin, _⟩ := pkginfo_last_three_fields stem hcnt
    rw [hpr] at hr2
    injection hr2 with he
    refine ⟨l, hl, stem, r, hms, matchTz_spec hms, hpr, ?_, hkv2⟩
    rw [he]
    exact hjoin

/-- Witness for C8: one matching line (`pkg-2.0-arm-1.txz`) and one
non-matching line. -/
theorem list_upgrades_parses_witness :
    (∀ l ∈ ["pkg-2.0-arm-1.txz".data, "Checking".data], ∀ stem,
      matchTz l = some stem → 3 ≤ stem.count '-') ∧
    (∃ d, list_upgrades ["pkg-2.0-arm-1.txz".data, "Checking".data] = .ok d ∧
      (∀ kv ∈ d, ∃ l ∈ ["pkg-2.0-arm-1.txz".data, "Checking".data],
        ∃ stem r, matchTz l = some stem ∧
        (∃ c, l = stem ++ '.' :: 't' :: c :: 'z' :: []) ∧
        pkginfo stem = some r ∧
        r.name ++ '-' :: r.version ++ '-' :: r.arch ++ '-' :: r.build = stem ∧
        kv = (r.name, r.version ++ '-' :: r.build)) ∧
      (∀ l ∈ ["pkg-2.0-arm-1.txz".data, "Checking".data], ∀ stem r,
        matchTz l = some stem → pkginfo stem = some r →
        (lookupStr r.name d).isSome)) := by
  have h3 : ∀ l ∈ ["pkg-2.0-arm-1.txz".data, "Checking".data], ∀ stem,
      matchTz l = some stem → 3 ≤ stem.count '-' := by
    intro l hl stem hms
    rcases List.mem_cons.mp hl with he | hl2
    · subst he
      rw [show matchTz "pkg-2.0-arm-1.txz".data
          = some "pkg-2.0-arm-1".data from rfl] at hms
      injection hms with he2
      rw [← he2]
      decide
    · rcases List.mem_cons.mp hl2 with he | hl3
      · subst he
        rw [show matchTz "Checking".data = none from rfl] at hms
        cases hms
      · exact absurd hl3 (List.not_mem_nil l)
  exact ⟨h3, list_upgrades_parses _ h3⟩

end Slackpkg
